import Mathlib

/-!
# threadpool: a verification development of `threadpool.hpp`

A shallow embedding of `blocked_range` and `thread_pool` (src/threadpool.hpp).

Modelling conventions.

* `Index` (the template parameter of `parallel_for`) is a signed integer type
  (`long` in example.cpp) and is modelled by `Int`.  Signed overflow is
  undefined behaviour in C++ and lies outside the model.
* `size_t` values (`workers.size()`, `block_size`, `leftover`, thread indices)
  are modelled by `Nat`; every value computed from them is bounded by the
  range length, so no unsigned wrap-around occurs.
* Every section of code executed under `queue_mutex` is one atomic step on the
  pool state.  The state carries two history components that the C++ object
  holds only implicitly: which worker threads have returned from their loop
  (`exited`) and which tasks were invoked with which worker index (`ran`).
* A `packaged_task` stored in the queue is a value of a type parameter `τ`.
  The lambdas `[range, &f]` pushed by `parallel_for` are identified by the
  captured `range`, since `f` is fixed during one call.
* Loops are structurally recursive on a fuel argument and keep the loop test of
  the source; each is called with a fuel equal to its trip count, and the
  `_fuel` theorems show that the test, not the fuel, ends the loop.
* `parallel_for` blocks until the workers have invoked the tasks it submitted.
  The model takes these invocations in the order of submission; a parameter
  `sched` names the worker that dequeues the `k`-th one.  The pool state that
  the model returns is the one right after the submissions.
* A call of `parallel_for` on a pool without workers divides by zero; the
  model returns `none` there.
-/

/-- The `blocked_range<Index>` struct: a `std::pair<Index, Index>`. -/
structure blocked_range where
  first : Int
  second : Int
deriving DecidableEq, Repr

/-- Member `blocked_range::begin()`. -/
def blocked_range.begin (r : blocked_range) : Int := r.first

/-- Member `blocked_range::end()`. -/
def blocked_range.end_ (r : blocked_range) : Int := r.second

/-- The number of indices of a range, `second - first`. -/
def blocked_range.size (r : blocked_range) : Int := r.second - r.first

/-- The state of a `thread_pool` object. -/
structure thread_pool (τ : Type) where
  /-- The value of `workers.size()`. -/
  workers : Nat
  /-- The queue `tasks`; the head of the list is `tasks.front()`. -/
  tasks : List τ
  /-- The flag `stop`. -/
  stop : Bool
  /-- The indices of the worker threads that have executed `return`. -/
  exited : List Nat
  /-- The invocations `task(i)` made so far, oldest first. -/
  ran : List (τ × Nat)
deriving DecidableEq, Repr

/-- A `std::future<void>`: it refers to the shared state of one task. -/
structure future (τ : Type) where
  task : τ
deriving DecidableEq, Repr

/-- The constructor `thread_pool(size_t threads = 0)`; `hardware_concurrency`
is the value returned by `std::thread::hardware_concurrency()`.  (The name of
the structure is taken, so the constructor is called `construct`.) -/
def thread_pool.construct {τ : Type} (threads hardware_concurrency : Nat) :
    thread_pool τ :=
  let threads := if threads = 0 then hardware_concurrency else threads
  { workers := threads, tasks := [], stop := false, exited := [], ran := [] }

/-- Member `num_threads()`. -/
def thread_pool.num_threads {τ : Type} (p : thread_pool τ) : Nat := p.workers

/-- Member `enqueue(f)`: the result is the returned future or the thrown
`std::runtime_error`, paired with the pool state afterwards. -/
def thread_pool.enqueue {τ : Type} (p : thread_pool τ) (f : τ) :
    Except String (future τ) × thread_pool τ :=
  let res : future τ := ⟨f⟩
  if p.stop then
    (.error "enqueue on stopped thread_pool", p)
  else
    (.ok res, { p with tasks := p.tasks ++ [f] })

/-- One iteration of the loop of worker thread `i` (lines 46-60).  `none`: the
step is not enabled, because there is no running worker `i` or because the
worker is blocked in `condition.wait`. -/
def thread_pool.worker_step {τ : Type} (p : thread_pool τ) (i : Nat) :
    Option (thread_pool τ) :=
  if i < p.workers ∧ i ∉ p.exited then
    if p.stop || decide (p.tasks.length > 0) then
      if p.stop && p.tasks.isEmpty then
        some { p with exited := i :: p.exited }
      else
        match p.tasks with
        | [] => none
        | task :: rest => some { p with tasks := rest, ran := p.ran ++ [(task, i)] }
    else
      none
  else
    none

/-- The critical section of the destructor (lines 67-70): `stop = true`. -/
def thread_pool.destroy {τ : Type} (p : thread_pool τ) : thread_pool τ :=
  { p with stop := true }

/-- The atomic steps that act on a pool. -/
inductive pool_action (τ : Type) where
  | enqueue (f : τ)
  | destroy
  | worker (i : Nat)
deriving DecidableEq, Repr

/-- The step function of the pool: `none` when the action is not enabled. An
`enqueue` that throws is a step that leaves the state as it was. -/
def thread_pool.step {τ : Type} (p : thread_pool τ) : pool_action τ → Option (thread_pool τ)
  | .enqueue f => some (p.enqueue f).2
  | .destroy => some p.destroy
  | .worker i => p.worker_step i

/-- Run a sequence of actions, each of which must be enabled. -/
def thread_pool.run {τ : Type} (p : thread_pool τ) : List (pool_action τ) → Option (thread_pool τ)
  | [] => some p
  | a :: rest =>
    match p.step a with
    | none => none
    | some q => q.run rest

/-- Every worker thread has left its loop, so that each `join` of the
destructor returns. -/
def thread_pool.all_exited {τ : Type} (p : thread_pool τ) : Prop :=
  ∀ i, i < p.workers → i ∈ p.exited

/-- The tasks accepted by the `enqueue` actions of a run, oldest first: those
issued while `stop` was still false. -/
def accepted {τ : Type} : Bool → List (pool_action τ) → List τ
  | _, [] => []
  | stop, .enqueue f :: rest => if stop then accepted stop rest else f :: accepted stop rest
  | _, .destroy :: rest => accepted true rest
  | stop, .worker _ :: rest => accepted stop rest

instance {τ : Type} (p : thread_pool τ) : Decidable p.all_exited :=
  Nat.decidableBallLT p.workers (fun i _ => i ∈ p.exited)

/-- A callable `f(range, thread_idx)` as passed to `parallel_for`.  It acts on
the data `σ` it captures by reference and returns normally or throws. -/
abbrev range_fn (σ : Type) := blocked_range → Nat → σ → Except String Unit × σ

/-- A callable `f(index, thread_idx)` as passed to `parallel_for_each`. -/
abbrev index_fn (σ : Type) := Int → Nat → σ → Except String Unit × σ

/-- What one call of `parallel_for` did. -/
structure pf_outcome (σ : Type) where
  /-- Normal return, or the exception that leaves the call. -/
  result : Except String Unit
  /-- The direct invocations `f(range, 0)` on the calling thread, in order. -/
  calls : List (blocked_range × Nat)
  /-- The vector `futures`: one entry for each accepted submission, in order. -/
  futures : List (future blocked_range)
  /-- The invocations `f(range, thread_idx)` made by workers for the submitted
  tasks, in the order of submission. -/
  ran : List (blocked_range × Nat)
  /-- The futures on which `wait()` has returned, in order. -/
  waited : List (future blocked_range)
  /-- The pool after the last `enqueue` of the call. -/
  pool : thread_pool blocked_range
  /-- The captured data when the call is left. -/
  data : σ

/-- The loop of lines 107-108: `for (Index i = start; i < end; i++)
f(blocked_range<Index>(i, i + 1), 0);`.  An exception of `f` ends it. -/
def parallel_for.inline_loop {σ : Type} (f : range_fn σ) (end_ : Int) :
    Nat → Int → List (blocked_range × Nat) → σ →
      Except String Unit × List (blocked_range × Nat) × σ
  | 0, _, calls, s => (.ok (), calls, s)
  | fuel + 1, i, calls, s =>
    if i < end_ then
      let range : blocked_range := ⟨i, i + 1⟩
      match f range 0 s with
      | (.ok _, s1) => inline_loop f end_ fuel (i + 1) (calls ++ [(range, 0)]) s1
      | (.error e, s1) => (.error e, calls ++ [(range, 0)], s1)
    else
      (.ok (), calls, s)

/-- The loop of lines 119-123, taken when `block_size == 0`:
`for (Index i = 0; i < leftover; i++)` with `range(i, i + 1)`.  An exception of
`enqueue` ends it. -/
def parallel_for.unit_loop (leftover : Nat) :
    Nat → Int → thread_pool blocked_range → List (future blocked_range) →
      Except String Unit × thread_pool blocked_range × List (future blocked_range)
  | 0, _, p, futures => (.ok (), p, futures)
  | fuel + 1, i, p, futures =>
    if i < (leftover : Int) then
      let range : blocked_range := ⟨i, i + 1⟩
      match p.enqueue range with
      | (.ok res, q) => unit_loop leftover fuel (i + 1) q (futures ++ [res])
      | (.error e, q) => (.error e, q, futures)
    else
      (.ok (), p, futures)

/-- The loop of lines 127-141: `for (size_t i = 0; i < workers.size(); i++)`
with the running `cumsum` and the decreasing `leftover`. -/
def parallel_for.block_loop (block_size : Nat) :
    Nat → Nat → Nat → Int → thread_pool blocked_range → List (future blocked_range) →
      Except String Unit × thread_pool blocked_range × List (future blocked_range)
  | 0, _, _, _, p, futures => (.ok (), p, futures)
  | fuel + 1, i, leftover, cumsum, p, futures =>
    if i < p.workers then
      let block_size_ := if leftover > 0 then block_size + 1 else block_size
      let leftover := if leftover > 0 then leftover - 1 else leftover
      let range : blocked_range := ⟨cumsum, cumsum + (block_size_ : Int)⟩
      match p.enqueue range with
      | (.ok res, q) =>
        block_loop block_size fuel (i + 1) leftover (cumsum + (block_size_ : Int)) q
          (futures ++ [res])
      | (.error e, q) => (.error e, q, futures)
    else
      (.ok (), p, futures)

/-- The invocations `task(thread_idx)` of the submitted lambdas
`[range, &f](size_t thread_idx) { f(range, thread_idx); }`, taken from the queue
in the order of submission; the `k`-th one is dequeued by worker `sched k`.
A `packaged_task` catches what `f` throws and stores it in the shared state:
the list returned holds the content of each shared state. -/
def parallel_for.run_submitted {σ : Type} (f : range_fn σ) (sched : Nat → Nat) :
    Nat → List (future blocked_range) → σ →
      List (Except String Unit) × List (blocked_range × Nat) × σ
  | _, [], s => ([], [], s)
  | k, fut :: rest, s =>
    match f fut.task (sched k) s with
    | (r, s1) =>
      match run_submitted f sched (k + 1) rest s1 with
      | (rs, ran, s2) => (r :: rs, (fut.task, sched k) :: ran, s2)

/-- The member `std::future<void>::wait()` on a ready shared state: it returns;
the exception that the state may hold is rethrown by `get()` only. -/
def future.wait {τ : Type} (_fut : future τ) (_stored : Except String Unit) :
    Except String Unit :=
  .ok ()

/-- The loop of lines 144-145: `for (auto& future : futures) future.wait();`. -/
def parallel_for.wait_loop :
    List (future blocked_range × Except String Unit) → List (future blocked_range) →
      Except String Unit × List (future blocked_range)
  | [], waited => (.ok (), waited)
  | (fut, stored) :: rest, waited =>
    match fut.wait stored with
    | .ok _ => wait_loop rest (waited ++ [fut])
    | .error e => (.error e, waited)

/-- Member `parallel_for(start, end, f)` called on pool `p` with captured data
`s`.  `none`: the division by `workers.size() == 0`, which is undefined. -/
def thread_pool.parallel_for {σ : Type} (p : thread_pool blocked_range) (start end_ : Int)
    (f : range_fn σ) (sched : Nat → Nat) (s : σ) : Option (pf_outcome σ) :=
  let length := end_ - start
  if length < 2 then
    match parallel_for.inline_loop f end_ (end_ - start).toNat start [] s with
    | (res, calls, s1) =>
      some { result := res, calls := calls, futures := [], ran := [], waited := [],
             pool := p, data := s1 }
  else if p.workers = 0 then
    none
  else
    let block_size := length.toNat / p.workers
    let leftover := length.toNat - block_size * p.workers
    let submitted :=
      if block_size = 0 then
        parallel_for.unit_loop leftover leftover 0 p []
      else
        parallel_for.block_loop block_size p.workers 0 leftover start p []
    match submitted with
    | (.error e, q, futures) =>
      some { result := .error e, calls := [], futures := futures, ran := [], waited := [],
             pool := q, data := s }
    | (.ok _, q, futures) =>
      match parallel_for.run_submitted f sched 0 futures s with
      | (stored, ran, s1) =>
        match parallel_for.wait_loop (futures.zip stored) [] with
        | (res, waited) =>
          some { result := res, calls := [], futures := futures, ran := ran,
                 waited := waited, pool := q, data := s1 }

/-- The lambda `block_f` of `parallel_for_each` (lines 151-156):
`for (; range.first < range.second; range.first++) f(range.first, thread_idx);`. -/
def parallel_for_each.block_f {σ : Type} (f : index_fn σ) :
    Nat → blocked_range → Nat → σ → Except String Unit × σ
  | 0, _, _, s => (.ok (), s)
  | fuel + 1, range, thread_idx, s =>
    if range.first < range.second then
      match f range.first thread_idx s with
      | (.ok _, s1) => block_f f fuel ⟨range.first + 1, range.second⟩ thread_idx s1
      | (.error e, s1) => (.error e, s1)
    else
      (.ok (), s)

/-- Member `parallel_for_each(start, end, f)`. -/
def thread_pool.parallel_for_each {σ : Type} (p : thread_pool blocked_range) (start end_ : Int)
    (f : index_fn σ) (sched : Nat → Nat) (s : σ) : Option (pf_outcome σ) :=
  p.parallel_for start end_
    (fun range thread_idx => parallel_for_each.block_f f (range.second - range.first).toNat
      range thread_idx)
    sched s

/-- The ranges that a call of `parallel_for` has handed to `f`, directly or
through its submissions, in order. -/
def pf_outcome.handed {σ : Type} (o : pf_outcome σ) : List blocked_range :=
  o.calls.map Prod.fst ++ o.futures.map future.task

/-- Each range begins where the one before it ends. -/
def contiguous (rs : List blocked_range) : Prop :=
  List.Chain' (fun a b => a.second = b.first) rs

/-- No two ranges of the list share an index. -/
def non_overlapping (rs : List blocked_range) : Prop :=
  List.Pairwise (fun a b => a.second ≤ b.first ∨ b.second ≤ a.first) rs

/-- The indices that lie in some range of the list are those of `[start, end_)`. -/
def union_is (rs : List blocked_range) (start end_ : Int) : Prop :=
  ∀ i : Int, (∃ r ∈ rs, r.first ≤ i ∧ i < r.second) ↔ (start ≤ i ∧ i < end_)

/-- The number of ranges of the list that contain index `i`. -/
def times_covered (rs : List blocked_range) (i : Int) : Nat :=
  (rs.filter (fun r => decide (r.first ≤ i ∧ i < r.second))).length

/-- The ranges between the consecutive cut points `g 0, g 1, ..., g n`. -/
def cuts (g : Nat → Int) (n : Nat) : List blocked_range :=
  (List.range n).map (fun k => ⟨g k, g (k + 1)⟩)

/-- The cut points of the block branch: `k` blocks of `block_size` elements and
one more element for each of the first `leftover` blocks. -/
def block_cut (start : Int) (block_size leftover : Nat) (k : Nat) : Int :=
  start + (k : Int) * (block_size : Int) + ((min k leftover : Nat) : Int)

/-- An index function that records each of its invocations. -/
def record_index : index_fn (List (Int × Nat)) :=
  fun i thread_idx s => (.ok (), s ++ [(i, thread_idx)])

/-- A range function that fails on every range. -/
def always_throws : range_fn Unit :=
  fun _ _ s => (.error "failure in f", s)

/-- The closed form of the ranges that a call with at least two elements
submits: unit ranges counted from `0` when `block_size == 0`, and the blocks
between the cut points of `block_cut` otherwise. -/
def submitted_ranges (workers : Nat) (start end_ : Int) : List blocked_range :=
  if (end_ - start).toNat / workers = 0 then
    cuts (fun k => (k : Int)) (end_ - start).toNat
  else
    cuts (block_cut start ((end_ - start).toNat / workers)
      ((end_ - start).toNat - (end_ - start).toNat / workers * workers)) workers

/-- Once a worker has returned, the pool is stopped and its queue is empty. -/
def drained {τ : Type} (p : thread_pool τ) : Prop :=
  p.exited ≠ [] → p.stop = true ∧ p.tasks = []

/-- A range function that does nothing. -/
def no_op : range_fn Unit :=
  fun _ _ s => (.ok (), s)

/-- The lambda of example.cpp, line 12: `v[i] += 1`. -/
def example_increment : index_fn (List Int) :=
  fun i _ v => (.ok (), v.set i.toNat (v.getD i.toNat 0 + 1))

/-- The indices `a, a + 1, ..., a + n - 1`. -/
def int_range (a : Int) (n : Nat) : List Int :=
  (List.range n).map (fun k : Nat => a + (k : Int))

/-! ## The pool: steps and runs -/

theorem worker_step_cases {τ : Type} (p q : thread_pool τ) (i : Nat)
    (h : p.worker_step i = some q) :
    (i < p.workers ∧ i ∉ p.exited) ∧
      ((p.stop = true ∧ p.tasks = [] ∧ q = { p with exited := i :: p.exited }) ∨
        (∃ task rest, p.tasks = task :: rest ∧
          q = { p with tasks := rest, ran := p.ran ++ [(task, i)] })) := by
  unfold thread_pool.worker_step at h
  by_cases hi : i < p.workers ∧ i ∉ p.exited
  · refine ⟨hi, ?_⟩
    rw [if_pos hi] at h
    cases ht : p.tasks with
    | nil =>
      cases hs : p.stop <;> simp [ht, hs] at h
      exact Or.inl ⟨rfl, rfl, h.symm⟩
    | cons task rest =>
      cases hs : p.stop <;> simp [ht, hs] at h
      · exact Or.inr ⟨task, rest, rfl, h.symm⟩
      · exact Or.inr ⟨task, rest, rfl, h.symm⟩
  · rw [if_neg hi] at h
    exact absurd h (by simp)

theorem worker_step_pop {τ : Type} (p : thread_pool τ) (i : Nat) (task : τ) (rest : List τ)
    (hi : i < p.workers) (hx : i ∉ p.exited) (ht : p.tasks = task :: rest) :
    p.worker_step i = some { p with tasks := rest, ran := p.ran ++ [(task, i)] } := by
  unfold thread_pool.worker_step
  rw [if_pos ⟨hi, hx⟩]
  cases hs : p.stop <;> simp [ht]

theorem step_stop_mono {τ : Type} (p q : thread_pool τ) (a : pool_action τ)
    (h : p.step a = some q) (hs : p.stop = true) : q.stop = true := by
  cases a with
  | enqueue f =>
    simp [thread_pool.step, thread_pool.enqueue, hs] at h
    rw [← h]; exact hs
  | destroy =>
    simp [thread_pool.step, thread_pool.destroy] at h
    rw [← h]
  | worker i =>
    obtain ⟨_, h1 | ⟨t, rest, _, h1⟩⟩ := worker_step_cases p q i h
    · rw [h1.2.2]; exact hs
    · rw [h1]; exact hs

theorem step_workers {τ : Type} (p q : thread_pool τ) (a : pool_action τ)
    (h : p.step a = some q) : q.workers = p.workers := by
  cases a with
  | enqueue f =>
    simp only [thread_pool.step, thread_pool.enqueue, Option.some.injEq] at h
    rw [← h]; split <;> rfl
  | destroy =>
    simp [thread_pool.step, thread_pool.destroy] at h
    rw [← h]
  | worker i =>
    obtain ⟨_, h1 | ⟨t, rest, _, h1⟩⟩ := worker_step_cases p q i h
    · rw [h1.2.2]
    · rw [h1]

theorem step_drained {τ : Type} (p q : thread_pool τ) (a : pool_action τ)
    (h : p.step a = some q) (hp : drained p) : drained q := by
  cases a with
  | enqueue f =>
    simp only [thread_pool.step, thread_pool.enqueue, Option.some.injEq] at h
    intro hx
    cases hs : p.stop
    · simp [hs] at h
      rw [← h] at hx
      have := (hp hx).1
      rw [hs] at this; exact absurd this (by simp)
    · simp [hs] at h
      rw [← h] at hx ⊢
      exact hp hx
  | destroy =>
    simp [thread_pool.step, thread_pool.destroy] at h
    intro hx
    rw [← h] at hx ⊢
    by_cases he : p.exited = []
    · exact absurd he hx
    · exact ⟨rfl, (hp he).2⟩
  | worker i =>
    obtain ⟨_, h1 | ⟨t, rest, ht, h1⟩⟩ := worker_step_cases p q i h
    · intro _
      rw [h1.2.2]
      exact ⟨h1.1, h1.2.1⟩
    · intro hx
      rw [h1] at hx
      have := (hp hx).2
      rw [ht] at this; exact absurd this (by simp)

theorem step_history {τ : Type} (p q : thread_pool τ) (a : pool_action τ)
    (h : p.step a = some q) :
    q.ran.map Prod.fst ++ q.tasks = p.ran.map Prod.fst ++ p.tasks ++ accepted p.stop [a] := by
  cases a with
  | enqueue f =>
    simp only [thread_pool.step, thread_pool.enqueue, Option.some.injEq] at h
    cases hs : p.stop
    · simp [hs] at h
      rw [← h]; simp [accepted]
    · simp [hs] at h
      rw [← h]; simp [accepted]
  | destroy =>
    simp [thread_pool.step, thread_pool.destroy] at h
    rw [← h]; simp [accepted]
  | worker i =>
    obtain ⟨_, h1 | ⟨t, rest, ht, h1⟩⟩ := worker_step_cases p q i h
    · rw [h1.2.2]; simp [accepted]
    · rw [h1]; simp [accepted, ht]

theorem accepted_cons {τ : Type} (p q : thread_pool τ) (a : pool_action τ)
    (rest : List (pool_action τ)) (h : p.step a = some q) :
    accepted p.stop (a :: rest) = accepted p.stop [a] ++ accepted q.stop rest := by
  cases a with
  | enqueue f =>
    simp only [thread_pool.step, thread_pool.enqueue, Option.some.injEq] at h
    cases hs : p.stop
    · simp [hs] at h
      rw [← h]; simp [accepted, hs]
    · simp [hs] at h
      rw [← h]; simp [accepted, hs]
  | destroy =>
    simp [thread_pool.step, thread_pool.destroy] at h
    rw [← h]; simp [accepted]
  | worker i =>
    obtain ⟨_, h1 | ⟨t, rest, ht, h1⟩⟩ := worker_step_cases p q i h
    · rw [h1.2.2]; simp [accepted]
    · rw [h1]; simp [accepted]

theorem run_cons {τ : Type} (p r : thread_pool τ) (a : pool_action τ)
    (rest : List (pool_action τ)) (h : p.run (a :: rest) = some r) :
    ∃ q, p.step a = some q ∧ q.run rest = some r := by
  rw [thread_pool.run] at h
  cases hq : p.step a with
  | none => rw [hq] at h; exact absurd h (by simp)
  | some q => rw [hq] at h; exact ⟨q, rfl, h⟩

theorem run_history {τ : Type} (acts : List (pool_action τ)) (p r : thread_pool τ)
    (h : p.run acts = some r) :
    r.ran.map Prod.fst ++ r.tasks = p.ran.map Prod.fst ++ p.tasks ++ accepted p.stop acts := by
  induction acts generalizing p with
  | nil =>
    simp [thread_pool.run] at h
    rw [← h]; simp [accepted]
  | cons a rest ih =>
    obtain ⟨q, hq, hr⟩ := run_cons p r a rest h
    rw [ih q hr, step_history p q a hq, accepted_cons p q a rest hq, List.append_assoc]

theorem run_invariant {τ : Type} (P : thread_pool τ → Prop)
    (hstep : ∀ (p q : thread_pool τ) (a : pool_action τ), p.step a = some q → P p → P q)
    (acts : List (pool_action τ)) (p r : thread_pool τ) (h : p.run acts = some r) (hp : P p) :
    P r := by
  induction acts generalizing p with
  | nil =>
    simp [thread_pool.run] at h
    rw [← h]; exact hp
  | cons a rest ih =>
    obtain ⟨q, hq, hr⟩ := run_cons p r a rest h
    exact ih q hr (hstep p q a hq hp)

theorem step_ran_index {τ : Type} (p q : thread_pool τ) (a : pool_action τ)
    (h : p.step a = some q) (hp : ∀ x ∈ p.ran, x.2 < p.workers) :
    ∀ x ∈ q.ran, x.2 < q.workers := by
  cases a with
  | enqueue f =>
    simp only [thread_pool.step, thread_pool.enqueue, Option.some.injEq] at h
    rw [← h]; split <;> exact hp
  | destroy =>
    simp [thread_pool.step, thread_pool.destroy] at h
    rw [← h]; exact hp
  | worker i =>
    obtain ⟨hi, h1 | ⟨t, rest, ht, h1⟩⟩ := worker_step_cases p q i h
    · rw [h1.2.2]; exact hp
    · rw [h1]
      intro x hx
      simp only [List.mem_append, List.mem_singleton] at hx
      rcases hx with hx | hx
      · exact hp x hx
      · rw [hx]; exact hi.1

theorem run_workers {τ : Type} (acts : List (pool_action τ)) (p r : thread_pool τ)
    (h : p.run acts = some r) : r.workers = p.workers :=
  run_invariant (fun q => q.workers = p.workers)
    (fun a b c hb ha => (step_workers a b c hb).trans ha) acts p r h rfl

theorem run_stop_mono {τ : Type} (acts : List (pool_action τ)) (p r : thread_pool τ)
    (h : p.run acts = some r) (hs : p.stop = true) : r.stop = true :=
  run_invariant (fun q => q.stop = true) step_stop_mono acts p r h hs

theorem construct_workers {τ : Type} (threads hardware_concurrency : Nat) :
    (thread_pool.construct threads hardware_concurrency : thread_pool τ).workers =
      if threads = 0 then hardware_concurrency else threads := by
  simp [thread_pool.construct]


/-! ## Cut points -/

theorem cuts_length (g : Nat → Int) (n : Nat) : (cuts g n).length = n := by
  simp [cuts]

theorem cuts_getElem? (g : Nat → Int) (n k : Nat) (hk : k < n) :
    (cuts g n)[k]? = some ⟨g k, g (k + 1)⟩ := by
  simp [cuts, List.getElem?_map, List.getElem?_range hk]

theorem cuts_succ (g : Nat → Int) (n : Nat) :
    cuts g (n + 1) = ⟨g 0, g 1⟩ :: cuts (fun k => g (k + 1)) n := by
  simp [cuts, List.range_succ_eq_map, List.map_map, Function.comp_def]

theorem cuts_succ_last (g : Nat → Int) (n : Nat) :
    cuts g (n + 1) = cuts g n ++ [⟨g n, g (n + 1)⟩] := by
  simp [cuts, List.range_succ]

theorem cuts_contiguous (g : Nat → Int) (n : Nat) : contiguous (cuts g n) := by
  unfold contiguous
  induction n generalizing g with
  | zero => simp [cuts]
  | succ n ih =>
    rw [cuts_succ]
    cases n with
    | zero => simp [cuts]
    | succ m =>
      have h := ih (fun k => g (k + 1))
      rw [cuts_succ] at h ⊢
      exact List.Chain'.cons rfl h

theorem mono_le (g : Nat → Int) (hg : ∀ k, g k ≤ g (k + 1)) (j k : Nat) (hjk : j ≤ k) :
    g j ≤ g k := by
  induction k with
  | zero =>
    have : j = 0 := by omega
    rw [this]
  | succ k ih =>
    by_cases h : j = k + 1
    · rw [h]
    · exact le_trans (ih (by omega)) (hg k)

theorem cuts_non_overlapping (g : Nat → Int) (hg : ∀ k, g k ≤ g (k + 1)) (n : Nat) :
    non_overlapping (cuts g n) := by
  unfold non_overlapping cuts
  rw [List.pairwise_map]
  exact (List.pairwise_lt_range n).imp (fun {a b} hab => Or.inl (mono_le g hg (a + 1) b hab))

theorem cuts_union (g : Nat → Int) (hg : ∀ k, g k ≤ g (k + 1)) (n : Nat) :
    union_is (cuts g n) (g 0) (g n) := by
  intro i
  induction n with
  | zero =>
    simp [cuts]
  | succ n ih =>
    rw [cuts_succ_last]
    constructor
    · rintro ⟨r, hr, h1, h2⟩
      rw [List.mem_append] at hr
      rcases hr with hr | hr
      · have := ih.mp ⟨r, hr, h1, h2⟩
        exact ⟨this.1, lt_of_lt_of_le this.2 (hg n)⟩
      · simp at hr
        subst hr
        exact ⟨le_trans (mono_le g hg 0 n (Nat.zero_le n)) h1, h2⟩
    · rintro ⟨h1, h2⟩
      by_cases h : i < g n
      · obtain ⟨r, hr, h3⟩ := ih.mpr ⟨h1, h⟩
        exact ⟨r, List.mem_append_left _ hr, h3⟩
      · exact ⟨⟨g n, g (n + 1)⟩, by simp, by simpa using h, h2⟩

theorem cuts_times_covered (g : Nat → Int) (hg : ∀ k, g k ≤ g (k + 1)) (n : Nat) (i : Int) :
    times_covered (cuts g n) i = if g 0 ≤ i ∧ i < g n then 1 else 0 := by
  induction n with
  | zero =>
    have h : ¬ (g 0 ≤ i ∧ i < g 0) := fun h => absurd h.2 (not_lt.mpr h.1)
    simp [cuts, times_covered, h]
  | succ n ih =>
    have h0 := mono_le g hg 0 n (Nat.zero_le n)
    have h1 := hg n
    unfold times_covered at ih ⊢
    rw [cuts_succ_last, List.filter_append, List.length_append, ih]
    by_cases ha : i < g n
    · have hb : ¬ (g n ≤ i) := not_le.mpr ha
      have hc : i < g (n + 1) := lt_of_lt_of_le ha h1
      by_cases hd : g 0 ≤ i <;> simp [List.filter_cons, ha, hb, hc, hd]
    · have hb : g n ≤ i := not_lt.mp ha
      have hd : g 0 ≤ i := le_trans h0 hb
      by_cases hc : i < g (n + 1) <;> simp [List.filter_cons, ha, hb, hc, hd]

theorem block_cut_mono (start : Int) (q l : Nat) (k : Nat) :
    block_cut start q l k ≤ block_cut start q l (k + 1) := by
  unfold block_cut
  have h : min k l ≤ min (k + 1) l := by omega
  have h' : ((min k l : Nat) : Int) ≤ ((min (k + 1) l : Nat) : Int) := by exact_mod_cast h
  have hq : (0 : Int) ≤ (q : Int) := Int.ofNat_nonneg q
  push_cast at h' ⊢
  nlinarith

theorem cuts_congr (g h : Nat → Int) (n : Nat) (hgh : ∀ k, k ≤ n → g k = h k) :
    cuts g n = cuts h n := by
  unfold cuts
  apply List.map_congr_left
  intro k hk
  rw [List.mem_range] at hk
  rw [hgh k (by omega), hgh (k + 1) (by omega)]

theorem enqueue_running {τ : Type} (p : thread_pool τ) (f : τ) (hs : p.stop = false) :
    p.enqueue f = (.ok ⟨f⟩, { p with tasks := p.tasks ++ [f] }) := by
  simp [thread_pool.enqueue, hs]

theorem enqueue_stopped {τ : Type} (p : thread_pool τ) (f : τ) (hs : p.stop = true) :
    p.enqueue f = (.error "enqueue on stopped thread_pool", p) := by
  simp [thread_pool.enqueue, hs]

theorem unit_loop_running (leftover fuel j : Nat) (p : thread_pool blocked_range)
    (futures : List (future blocked_range)) (hj : j + fuel = leftover) (hs : p.stop = false) :
    parallel_for.unit_loop leftover fuel (j : Int) p futures =
      (.ok (), { p with tasks := p.tasks ++ cuts (fun k => (j : Int) + (k : Int)) fuel },
        futures ++ (cuts (fun k => (j : Int) + (k : Int)) fuel).map future.mk) := by
  induction fuel generalizing j p futures with
  | zero => simp [parallel_for.unit_loop, cuts]
  | succ fuel ih =>
    have hlt : (j : Int) < (leftover : Int) := by exact_mod_cast (by omega : j < leftover)
    have hcast : ((j : Int) + 1) = ((j + 1 : Nat) : Int) := by push_cast; rfl
    have hc : cuts (fun k => ((j + 1 : Nat) : Int) + (k : Int)) fuel =
        cuts (fun k => (j : Int) + ((k + 1 : Nat) : Int)) fuel :=
      cuts_congr _ _ _ (fun k _ => by push_cast; ring)
    rw [parallel_for.unit_loop, if_pos hlt]
    simp only [enqueue_running p _ hs]
    rw [hcast, ih (j + 1), hc, cuts_succ]
    · simp
    · omega
    · exact hs

theorem block_loop_running (block_size fuel i leftover : Nat) (cumsum : Int)
    (p : thread_pool blocked_range) (futures : List (future blocked_range))
    (hi : i + fuel = p.workers) (hs : p.stop = false) :
    parallel_for.block_loop block_size fuel i leftover cumsum p futures =
      (.ok (), { p with tasks := p.tasks ++ cuts (block_cut cumsum block_size leftover) fuel },
        futures ++ (cuts (block_cut cumsum block_size leftover) fuel).map future.mk) := by
  induction fuel generalizing i leftover cumsum p futures with
  | zero => simp [parallel_for.block_loop, cuts]
  | succ fuel ih =>
    have hlt : i < p.workers := by omega
    rw [parallel_for.block_loop, if_pos hlt]
    simp only [enqueue_running p _ hs]
    rw [ih (i + 1), cuts_succ]
    rotate_left
    · show i + 1 + fuel = p.workers
      omega
    · exact hs
    have hc : cuts (fun k => block_cut cumsum block_size leftover (k + 1)) fuel =
        cuts (block_cut (cumsum + ((if leftover > 0 then block_size + 1 else block_size : Nat) : Int))
          block_size (if leftover > 0 then leftover - 1 else leftover)) fuel := by
      apply cuts_congr
      intro k _
      unfold block_cut
      by_cases hl : leftover > 0
      · have hm : min (k + 1) leftover = min k (leftover - 1) + 1 := by omega
        simp only [hl, if_true, hm]
        push_cast
        ring
      · have hl0 : leftover = 0 := by omega
        subst hl0
        simp
        ring
    have h0 : block_cut cumsum block_size leftover 0 = cumsum := by simp [block_cut]
    have h1 : block_cut cumsum block_size leftover 1 =
        cumsum + ((if leftover > 0 then block_size + 1 else block_size : Nat) : Int) := by
      unfold block_cut
      by_cases hl : leftover > 0
      · have hm : min 1 leftover = 1 := by omega
        simp only [hl, if_true, hm]
        push_cast
        ring
      · have hl0 : leftover = 0 := by omega
        subst hl0
        simp
    rw [hc, h0, h1]
    simp

/-! ## The loops of `parallel_for` -/

theorem unit_loop_stopped (leftover fuel : Nat) (i : Int) (p : thread_pool blocked_range)
    (futures : List (future blocked_range)) (hs : p.stop = true) :
    (parallel_for.unit_loop leftover fuel i p futures).2 = (p, futures) := by
  cases fuel with
  | zero => rfl
  | succ fuel =>
    rw [parallel_for.unit_loop]
    split
    · simp only [enqueue_stopped p _ hs]
    · rfl

theorem block_loop_stopped (block_size fuel i leftover : Nat) (cumsum : Int)
    (p : thread_pool blocked_range) (futures : List (future blocked_range))
    (hs : p.stop = true) :
    (parallel_for.block_loop block_size fuel i leftover cumsum p futures).2 = (p, futures) := by
  cases fuel with
  | zero => rfl
  | succ fuel =>
    rw [parallel_for.block_loop]
    split
    · simp only [enqueue_stopped p _ hs]
    · rfl

theorem wait_loop_all (l : List (future blocked_range × Except String Unit))
    (waited : List (future blocked_range)) :
    parallel_for.wait_loop l waited = (.ok (), waited ++ l.map Prod.fst) := by
  induction l generalizing waited with
  | nil => simp [parallel_for.wait_loop]
  | cons x rest ih =>
    obtain ⟨fut, stored⟩ := x
    simp [parallel_for.wait_loop, future.wait, ih]

theorem run_submitted_spec {σ : Type} (f : range_fn σ) (sched : Nat → Nat) (k : Nat)
    (futures : List (future blocked_range)) (s : σ) :
    (parallel_for.run_submitted f sched k futures s).1.length = futures.length ∧
      (parallel_for.run_submitted f sched k futures s).2.1.map Prod.fst =
        futures.map future.task := by
  induction futures generalizing k s with
  | nil => simp [parallel_for.run_submitted]
  | cons fut rest ih =>
    have h := ih (k + 1) (f fut.task (sched k) s).2
    simp [parallel_for.run_submitted, h.1, h.2]

theorem parallel_for_running {σ : Type} (p : thread_pool blocked_range) (start end_ : Int)
    (f : range_fn σ) (sched : Nat → Nat) (s : σ) (hlen : 2 ≤ end_ - start)
    (hw : 1 ≤ p.workers) (hs : p.stop = false) :
    ∃ o, p.parallel_for start end_ f sched s = some o ∧ o.result = .ok () ∧ o.calls = [] ∧
      o.futures.map future.task = submitted_ranges p.workers start end_ ∧
      o.waited = o.futures ∧
      o.ran.map Prod.fst = o.futures.map future.task ∧
      o.pool = { p with tasks := p.tasks ++ submitted_ranges p.workers start end_ } := by
  have h1 : ¬ (end_ - start < 2) := by omega
  have h2 : ¬ (p.workers = 0) := by omega
  unfold thread_pool.parallel_for
  simp only [h1, h2, if_false]
  by_cases hb : (end_ - start).toNat / p.workers = 0
  · have hsub : submitted_ranges p.workers start end_ =
        cuts (fun k => (k : Int)) (end_ - start).toNat := by simp [submitted_ranges, hb]
    have hl := unit_loop_running (end_ - start).toNat (end_ - start).toNat 0 p [] (by omega) hs
    simp only [Nat.cast_zero, zero_add, List.nil_append] at hl
    simp only [hb, if_true, Nat.zero_mul, Nat.sub_zero, hl, hsub, wait_loop_all]
    have hr := run_submitted_spec f sched 0
      ((cuts (fun k => (k : Int)) (end_ - start).toNat).map future.mk) s
    refine ⟨_, rfl, rfl, rfl, ?_, ?_, ?_, rfl⟩
    · simp [List.map_map, Function.comp_def]
    · simp [List.map_fst_zip, hr.1]
    · exact hr.2
  · have hsub : submitted_ranges p.workers start end_ =
        cuts (block_cut start ((end_ - start).toNat / p.workers)
          ((end_ - start).toNat - (end_ - start).toNat / p.workers * p.workers)) p.workers := by
      simp [submitted_ranges, hb]
    have hl := block_loop_running ((end_ - start).toNat / p.workers) p.workers 0
      ((end_ - start).toNat - (end_ - start).toNat / p.workers * p.workers) start p []
      (by omega) hs
    simp only [List.nil_append] at hl
    simp only [hb, if_false, hl, hsub, wait_loop_all]
    have hr := run_submitted_spec f sched 0
      ((cuts (block_cut start ((end_ - start).toNat / p.workers)
          ((end_ - start).toNat - (end_ - start).toNat / p.workers * p.workers))
            p.workers).map future.mk) s
    refine ⟨_, rfl, rfl, rfl, ?_, ?_, ?_, rfl⟩
    · simp [List.map_map, Function.comp_def]
    · simp [List.map_fst_zip, hr.1]
    · exact hr.2

theorem unit_loop_throws (leftover : Nat) (p : thread_pool blocked_range)
    (futures : List (future blocked_range)) (hl : 1 ≤ leftover) (hs : p.stop = true) :
    parallel_for.unit_loop leftover leftover 0 p futures =
      (.error "enqueue on stopped thread_pool", p, futures) := by
  obtain ⟨n, rfl⟩ : ∃ n, leftover = n + 1 := ⟨leftover - 1, by omega⟩
  have hlt : (0 : Int) < ((n + 1 : Nat) : Int) := by exact_mod_cast Nat.succ_pos n
  rw [parallel_for.unit_loop, if_pos hlt]
  simp only [enqueue_stopped p _ hs]

theorem block_loop_throws (block_size leftover : Nat) (cumsum : Int)
    (p : thread_pool blocked_range) (futures : List (future blocked_range))
    (hw : 1 ≤ p.workers) (hs : p.stop = true) :
    parallel_for.block_loop block_size p.workers 0 leftover cumsum p futures =
      (.error "enqueue on stopped thread_pool", p, futures) := by
  obtain ⟨n, hn⟩ : ∃ n, p.workers = n + 1 := ⟨p.workers - 1, by omega⟩
  rw [hn, parallel_for.block_loop, if_pos (by omega)]
  simp only [enqueue_stopped p _ hs]

theorem parallel_for_stopped {σ : Type} (p : thread_pool blocked_range) (start end_ : Int)
    (f : range_fn σ) (sched : Nat → Nat) (s : σ) (hlen : 2 ≤ end_ - start)
    (hw : 1 ≤ p.workers) (hs : p.stop = true) :
    p.parallel_for start end_ f sched s =
      some { result := .error "enqueue on stopped thread_pool", calls := [], futures := [],
             ran := [], waited := [], pool := p, data := s } := by
  have h1 : ¬ (end_ - start < 2) := by omega
  have h2 : ¬ (p.workers = 0) := by omega
  unfold thread_pool.parallel_for
  simp only [h1, h2, if_false]
  by_cases hb : (end_ - start).toNat / p.workers = 0
  · simp only [hb, if_true, Nat.zero_mul, Nat.sub_zero]
    rw [unit_loop_throws _ p [] (by omega) hs]
  · simp only [hb, if_false]
    rw [block_loop_throws _ _ _ p [] hw hs]

theorem parallel_for_short {σ : Type} (p : thread_pool blocked_range) (start end_ : Int)
    (f : range_fn σ) (sched : Nat → Nat) (s : σ) (hlen : end_ - start < 2) :
    ∃ o, p.parallel_for start end_ f sched s = some o ∧ o.futures = [] ∧ o.ran = [] ∧
      o.waited = [] ∧ o.pool = p ∧
      (end_ - start = 1 →
        o.calls = [(⟨start, start + 1⟩, 0)] ∧ (o.result, o.data) = f ⟨start, start + 1⟩ 0 s) ∧
      (end_ ≤ start → o.calls = [] ∧ o.result = .ok () ∧ o.data = s) := by
  unfold thread_pool.parallel_for
  simp only [hlen, if_true]
  by_cases h1 : end_ - start = 1
  · have hn : (end_ - start).toNat = 1 := by omega
    have hlt : start < end_ := by omega
    have h2 : ¬ (end_ ≤ start) := by omega
    rw [hn]
    simp only [parallel_for.inline_loop, hlt, if_true]
    rcases hf : f ⟨start, start + 1⟩ 0 s with ⟨r, s1⟩
    cases r <;> simp [h1, h2]
  · have hn : (end_ - start).toNat = 0 := by omega
    have h2 : end_ ≤ start := by omega
    rw [hn]
    simp [parallel_for.inline_loop, h1, h2]

theorem block_cut_zero (start : Int) (q l : Nat) : block_cut start q l 0 = start := by
  simp [block_cut]

theorem block_cut_step (start : Int) (q l k : Nat) :
    block_cut start q l (k + 1) - block_cut start q l k =
      ((if k < l then q + 1 else q : Nat) : Int) := by
  unfold block_cut
  by_cases h : k < l
  · have h1 : min (k + 1) l = k + 1 := by omega
    have h2 : min k l = k := by omega
    simp only [h, if_true, h1, h2]
    push_cast
    ring
  · have h1 : min (k + 1) l = l := by omega
    have h2 : min k l = l := by omega
    simp only [h, if_false, h1, h2]
    push_cast
    ring

theorem block_cut_last (start end_ : Int) (workers : Nat) (hlen : 0 ≤ end_ - start)
    (hw : 1 ≤ workers) :
    block_cut start ((end_ - start).toNat / workers)
      ((end_ - start).toNat - (end_ - start).toNat / workers * workers) workers = end_ := by
  unfold block_cut
  have hdm := Nat.div_add_mod (end_ - start).toNat workers
  have hlt := Nat.mod_lt (end_ - start).toNat (by omega : workers > 0)
  rw [Nat.mul_comm] at hdm
  have hmin : min workers ((end_ - start).toNat - (end_ - start).toNat / workers * workers) =
      (end_ - start).toNat - (end_ - start).toNat / workers * workers := by omega
  have hsum : workers * ((end_ - start).toNat / workers) +
      ((end_ - start).toNat - (end_ - start).toNat / workers * workers) = (end_ - start).toNat := by
    rw [Nat.mul_comm]; omega
  have hcast : ((workers : Int) * (((end_ - start).toNat / workers : Nat) : Int)) +
      (((end_ - start).toNat - (end_ - start).toNat / workers * workers : Nat) : Int) =
      ((end_ - start).toNat : Int) := by exact_mod_cast hsum
  rw [hmin]
  have htn : ((end_ - start).toNat : Int) = end_ - start := Int.toNat_of_nonneg hlen
  linarith

theorem leftover_eq_mod (length workers : Nat) :
    length - length / workers * workers = length % workers := by
  have hdm := Nat.div_add_mod length workers
  rw [Nat.mul_comm] at hdm
  omega

theorem parallel_for_num_threads {σ : Type} (p : thread_pool blocked_range) (start end_ : Int)
    (f : range_fn σ) (sched : Nat → Nat) (s : σ) (o : pf_outcome σ)
    (hcall : p.parallel_for start end_ f sched s = some o) :
    o.pool.num_threads = p.num_threads := by
  by_cases hlen : end_ - start < 2
  · obtain ⟨o', ho', _, _, _, hpool, _⟩ := parallel_for_short p start end_ f sched s hlen
    rw [hcall] at ho'
    cases Option.some.inj ho'
    rw [hpool]
  · by_cases hw : p.workers = 0
    · simp [thread_pool.parallel_for, hlen, hw] at hcall
    · cases hs : p.stop
      · obtain ⟨o', ho', _, _, _, _, _, hpool⟩ :=
          parallel_for_running p start end_ f sched s (by omega) (by omega) hs
        rw [hcall] at ho'
        cases Option.some.inj ho'
        rw [hpool]; rfl
      · have h := parallel_for_stopped p start end_ f sched s (by omega) (by omega) hs
        rw [hcall] at h
        cases Option.some.inj h
        rfl

/-! ## Fuel: each loop is run with as much fuel as it has iterations -/

theorem inline_loop_fuel {σ : Type} (f : range_fn σ) (end_ : Int) (fuel extra : Nat) (i : Int)
    (calls : List (blocked_range × Nat)) (s : σ) (h : (end_ - i).toNat ≤ fuel) :
    parallel_for.inline_loop f end_ (fuel + extra) i calls s =
      parallel_for.inline_loop f end_ fuel i calls s := by
  induction fuel generalizing i calls s with
  | zero =>
    have hn : ¬ (i < end_) := by omega
    cases extra with
    | zero => rfl
    | succ e => simp [parallel_for.inline_loop, hn]
  | succ fuel ih =>
    rw [show fuel + 1 + extra = (fuel + extra) + 1 by omega]
    rw [parallel_for.inline_loop, parallel_for.inline_loop]
    by_cases hlt : i < end_
    · simp only [hlt, if_true]
      rcases f ⟨i, i + 1⟩ 0 s with ⟨r, s1⟩
      cases r with
      | error e => rfl
      | ok u => exact ih (i + 1) _ s1 (by omega)
    · simp only [hlt, if_false]

theorem unit_loop_fuel (leftover fuel extra : Nat) (i : Int) (p : thread_pool blocked_range)
    (futures : List (future blocked_range)) (h : ((leftover : Int) - i).toNat ≤ fuel) :
    parallel_for.unit_loop leftover (fuel + extra) i p futures =
      parallel_for.unit_loop leftover fuel i p futures := by
  induction fuel generalizing i p futures with
  | zero =>
    have hn : ¬ (i < (leftover : Int)) := by omega
    cases extra with
    | zero => rfl
    | succ e => simp [parallel_for.unit_loop, hn]
  | succ fuel ih =>
    rw [show fuel + 1 + extra = (fuel + extra) + 1 by omega]
    rw [parallel_for.unit_loop, parallel_for.unit_loop]
    by_cases hlt : i < (leftover : Int)
    · simp only [hlt, if_true]
      cases hs : p.stop
      · simp only [enqueue_running p _ hs]
        exact ih (i + 1) _ _ (by omega)
      · simp only [enqueue_stopped p _ hs]
    · simp only [hlt, if_false]

theorem block_loop_fuel (block_size fuel extra i leftover : Nat) (cumsum : Int)
    (p : thread_pool blocked_range) (futures : List (future blocked_range))
    (h : p.workers - i ≤ fuel) :
    parallel_for.block_loop block_size (fuel + extra) i leftover cumsum p futures =
      parallel_for.block_loop block_size fuel i leftover cumsum p futures := by
  induction fuel generalizing i leftover cumsum p futures with
  | zero =>
    have hn : ¬ (i < p.workers) := by omega
    cases extra with
    | zero => rfl
    | succ e => simp [parallel_for.block_loop, hn]
  | succ fuel ih =>
    rw [show fuel + 1 + extra = (fuel + extra) + 1 by omega]
    rw [parallel_for.block_loop, parallel_for.block_loop]
    by_cases hlt : i < p.workers
    · simp only [hlt, if_true]
      cases hs : p.stop
      · simp only [enqueue_running p _ hs]
        exact ih (i + 1) _ _ _ _ (by show p.workers - (i + 1) ≤ fuel; omega)
      · simp only [enqueue_stopped p _ hs]
    · simp only [hlt, if_false]

theorem block_f_fuel {σ : Type} (f : index_fn σ) (fuel extra : Nat) (range : blocked_range)
    (thread_idx : Nat) (s : σ) (h : (range.second - range.first).toNat ≤ fuel) :
    parallel_for_each.block_f f (fuel + extra) range thread_idx s =
      parallel_for_each.block_f f fuel range thread_idx s := by
  induction fuel generalizing range s with
  | zero =>
    have hn : ¬ (range.first < range.second) := by omega
    cases extra with
    | zero => rfl
    | succ e => simp [parallel_for_each.block_f, hn]
  | succ fuel ih =>
    rw [show fuel + 1 + extra = (fuel + extra) + 1 by omega]
    rw [parallel_for_each.block_f, parallel_for_each.block_f]
    by_cases hlt : range.first < range.second
    · simp only [hlt, if_true]
      rcases f range.first thread_idx s with ⟨r, s1⟩
      cases r with
      | error e => rfl
      | ok u => exact ih ⟨range.first + 1, range.second⟩ s1 (by simp only; omega)
    · simp only [hlt, if_false]

/-! ## Where the partition is exact -/

theorem int_range_append (a : Int) (m n : Nat) :
    int_range a (m + n) = int_range a m ++ int_range (a + (m : Int)) n := by
  unfold int_range
  rw [List.range_add, List.map_append, List.map_map]
  congr 1
  apply List.map_congr_left
  intro k _
  simp only [Function.comp_apply]
  push_cast
  ring

theorem block_f_record (fuel : Nat) (a b : Int) (thread_idx : Nat) (tr : List (Int × Nat))
    (hfuel : fuel = (b - a).toNat) :
    parallel_for_each.block_f record_index fuel ⟨a, b⟩ thread_idx tr =
      (.ok (), tr ++ (int_range a fuel).map (fun i => (i, thread_idx))) := by
  induction fuel generalizing a tr with
  | zero => simp [parallel_for_each.block_f, int_range]
  | succ fuel ih =>
    have hlt : a < b := by omega
    rw [parallel_for_each.block_f]
    simp only [hlt, if_true, record_index]
    rw [ih (a + 1) _ (by omega)]
    rw [show fuel + 1 = 1 + fuel by omega, int_range_append]
    simp [int_range, List.range_succ]

theorem run_submitted_record (sched : Nat → Nat) (g : Nat → Int) (hg : ∀ k, g k ≤ g (k + 1))
    (n k : Nat) (tr : List (Int × Nat)) :
    ((parallel_for.run_submitted
        (fun range thread_idx => parallel_for_each.block_f record_index
          (range.second - range.first).toNat range thread_idx)
        sched k ((cuts g n).map future.mk) tr).2.2).map Prod.fst =
      tr.map Prod.fst ++ int_range (g 0) (g n - g 0).toNat := by
  induction n generalizing g k tr with
  | zero => simp [cuts, parallel_for.run_submitted, int_range]
  | succ n ih =>
    have h01 : g 0 ≤ g 1 := hg 0
    have h1n := mono_le g hg 1 (n + 1) (by omega)
    rw [cuts_succ]
    simp only [List.map_cons, parallel_for.run_submitted]
    rw [block_f_record _ (g 0) (g 1) (sched k) tr rfl]
    simp only []
    rw [ih (fun j => g (j + 1)) (fun j => hg (j + 1)) (k + 1)]
    have hsplit : (g (n + 1) - g 0).toNat = (g 1 - g 0).toNat + (g (n + 1) - g 1).toNat := by
      omega
    have hcast : g 0 + (((g 1 - g 0).toNat : Nat) : Int) = g 1 := by omega
    rw [hsplit, int_range_append, hcast]
    simp [List.map_map, Function.comp_def]

theorem parallel_for_running_data {σ : Type} (p : thread_pool blocked_range) (start end_ : Int)
    (f : range_fn σ) (sched : Nat → Nat) (s : σ) (hlen : 2 ≤ end_ - start)
    (hw : 1 ≤ p.workers) (hs : p.stop = false) :
    ∃ o, p.parallel_for start end_ f sched s = some o ∧
      o.data = (parallel_for.run_submitted f sched 0
        ((submitted_ranges p.workers start end_).map future.mk) s).2.2 := by
  have h1 : ¬ (end_ - start < 2) := by omega
  have h2 : ¬ (p.workers = 0) := by omega
  unfold thread_pool.parallel_for
  simp only [h1, h2, if_false]
  by_cases hb : (end_ - start).toNat / p.workers = 0
  · have hl := unit_loop_running (end_ - start).toNat (end_ - start).toNat 0 p [] (by omega) hs
    simp only [Nat.cast_zero, zero_add, List.nil_append] at hl
    simp only [hb, if_true, Nat.zero_mul, Nat.sub_zero, hl, wait_loop_all, submitted_ranges]
    exact ⟨_, rfl, rfl⟩
  · have hl := block_loop_running ((end_ - start).toNat / p.workers) p.workers 0
      ((end_ - start).toNat - (end_ - start).toNat / p.workers * p.workers) start p []
      (by omega) hs
    simp only [List.nil_append] at hl
    simp only [hb, if_false, hl, wait_loop_all, submitted_ranges]
    exact ⟨_, rfl, rfl⟩

theorem unit_cut_mono (start : Int) (k : Nat) :
    (fun j : Nat => start + (j : Int)) k ≤ (fun j : Nat => start + (j : Int)) (k + 1) := by
  show start + (k : Int) ≤ start + ((k + 1 : Nat) : Int)
  push_cast
  omega

theorem handed_cuts {σ : Type} (p : thread_pool blocked_range) (start end_ : Int)
    (f : range_fn σ) (sched : Nat → Nat) (s : σ) (hle : start ≤ end_) (hw : 1 ≤ p.workers)
    (hs : p.stop = false)
    (hcase : end_ - start < 2 ∨ (p.workers : Int) ≤ end_ - start ∨ start = 0) :
    ∃ o g n, p.parallel_for start end_ f sched s = some o ∧ (∀ k, g k ≤ g (k + 1)) ∧
      g 0 = start ∧ g n = end_ ∧
      (∃ q : Nat, ∀ k, g (k + 1) - g k = (q : Int) ∨ g (k + 1) - g k = (q : Int) + 1) ∧
      o.handed = cuts g n ∧
      (2 ≤ end_ - start → submitted_ranges p.workers start end_ = cuts g n) := by
  have hsz : ∃ q : Nat, ∀ k, (fun j : Nat => start + (j : Int)) (k + 1) -
      (fun j : Nat => start + (j : Int)) k = (q : Int) ∨
      (fun j : Nat => start + (j : Int)) (k + 1) - (fun j : Nat => start + (j : Int)) k =
        (q : Int) + 1 := by
    refine ⟨0, fun k => Or.inr ?_⟩
    show start + ((k + 1 : Nat) : Int) - (start + (k : Int)) = ((0 : Nat) : Int) + 1
    push_cast
    omega
  have hz : (fun j : Nat => start + (j : Int)) 0 = start := by
    show start + ((0 : Nat) : Int) = start
    simp
  have hn : (fun j : Nat => start + (j : Int)) (end_ - start).toNat = end_ := by
    show start + (((end_ - start).toNat : Nat) : Int) = end_
    omega
  by_cases hlen : end_ - start < 2
  · obtain ⟨o, ho, hfut, _, _, _, h1, h0⟩ := parallel_for_short p start end_ f sched s hlen
    refine ⟨o, fun j => start + (j : Int), (end_ - start).toNat, ho, unit_cut_mono start, hz, hn,
      hsz, ?_, fun h => absurd hlen (by omega)⟩
    by_cases he : end_ - start = 1
    · rw [he]
      simp [pf_outcome.handed, (h1 he).1, hfut, cuts, List.range_succ]
    · have hz' : (end_ - start).toNat = 0 := by omega
      rw [hz']
      simp [pf_outcome.handed, (h0 (by omega)).1, hfut, cuts]
  · obtain ⟨o, ho, _, hcalls, hfut, _, _, _⟩ :=
      parallel_for_running p start end_ f sched s (by omega) hw hs
    have hh : o.handed = submitted_ranges p.workers start end_ := by
      simp [pf_outcome.handed, hcalls, hfut]
    by_cases hq : (end_ - start).toNat / p.workers = 0
    · have hlt : (end_ - start).toNat < p.workers := by
        by_contra hge
        exact absurd hq (Nat.pos_iff_ne_zero.mp (Nat.div_pos (by omega) (by omega)))
      have hstart : start = 0 := by
        rcases hcase with h | h | h
        · exact absurd h hlen
        · omega
        · exact h
      have hsub : submitted_ranges p.workers start end_ =
          cuts (fun j : Nat => start + (j : Int)) (end_ - start).toNat := by
        rw [submitted_ranges, if_pos hq]
        exact cuts_congr _ _ _ (fun k _ => by rw [hstart]; simp)
      exact ⟨o, fun j => start + (j : Int), (end_ - start).toNat, ho, unit_cut_mono start, hz, hn,
        hsz, by rw [hh, hsub], fun _ => hsub⟩
    · have hsub : submitted_ranges p.workers start end_ =
          cuts (block_cut start ((end_ - start).toNat / p.workers)
            ((end_ - start).toNat - (end_ - start).toNat / p.workers * p.workers)) p.workers := by
        rw [submitted_ranges, if_neg hq]
      refine ⟨o, block_cut start ((end_ - start).toNat / p.workers)
          ((end_ - start).toNat - (end_ - start).toNat / p.workers * p.workers), p.workers, ho,
        block_cut_mono _ _ _, block_cut_zero _ _ _,
        block_cut_last start end_ p.workers (by omega) hw, ?_, by rw [hh, hsub], fun _ => hsub⟩
      refine ⟨(end_ - start).toNat / p.workers, fun k => ?_⟩
      rw [block_cut_step]
      split
      · right; push_cast; rfl
      · left; rfl

/-- Outside the branch `block_size == 0` with `start != 0`, that is when
`end - start < 2`, or `workers <= end - start`, or `start = 0`, the ranges that
`parallel_for` hands to `f` on a running pool are contiguous, pairwise disjoint,
cover exactly `[start, end)`, and differ in size by at most 1. -/
theorem parallel_for_partition {σ : Type} (p : thread_pool blocked_range) (start end_ : Int)
    (f : range_fn σ) (sched : Nat → Nat) (s : σ) (hle : start ≤ end_) (hw : 1 ≤ p.workers)
    (hs : p.stop = false)
    (hcase : end_ - start < 2 ∨ (p.workers : Int) ≤ end_ - start ∨ start = 0) :
    ∃ o, p.parallel_for start end_ f sched s = some o ∧
      contiguous o.handed ∧ non_overlapping o.handed ∧ union_is o.handed start end_ ∧
      (∀ i, times_covered o.handed i = if start ≤ i ∧ i < end_ then 1 else 0) ∧
      (∀ a ∈ o.handed, ∀ b ∈ o.handed, a.size - b.size ≤ 1) := by
  obtain ⟨o, g, n, ho, hg, h0, hn, ⟨q, hq⟩, hh, _⟩ :=
    handed_cuts p start end_ f sched s hle hw hs hcase
  refine ⟨o, ho, ?_, ?_, ?_, ?_, ?_⟩
  · rw [hh]; exact cuts_contiguous g n
  · rw [hh]; exact cuts_non_overlapping g hg n
  · rw [hh, ← h0, ← hn]; exact cuts_union g hg n
  · intro i
    rw [hh, ← h0, ← hn]; exact cuts_times_covered g hg n i
  · intro a ha b hb
    rw [hh, cuts, List.mem_map] at ha hb
    obtain ⟨j, _, rfl⟩ := ha
    obtain ⟨k, _, rfl⟩ := hb
    simp only [blocked_range.size]
    rcases hq j with h1 | h1 <;> rcases hq k with h2 | h2 <;> omega

/-- Outside the branch `block_size == 0` with `start != 0`, `parallel_for_each`
on a running pool invokes the index function once on each index of
`[start, end)`, in increasing order in this model, and on no other index. -/
theorem parallel_for_each_visits (p : thread_pool blocked_range) (start end_ : Int)
    (sched : Nat → Nat) (hle : start ≤ end_) (hw : 1 ≤ p.workers) (hs : p.stop = false)
    (hcase : end_ - start < 2 ∨ (p.workers : Int) ≤ end_ - start ∨ start = 0) :
    ∃ o, p.parallel_for_each start end_ record_index sched [] = some o ∧
      o.data.map Prod.fst = int_range start (end_ - start).toNat := by
  unfold thread_pool.parallel_for_each
  by_cases hlen : end_ - start < 2
  · obtain ⟨o, ho, _, _, _, _, h1, h0⟩ := parallel_for_short p start end_
      (fun range thread_idx => parallel_for_each.block_f record_index
        (range.second - range.first).toNat range thread_idx) sched [] hlen
    refine ⟨o, ho, ?_⟩
    by_cases he : end_ - start = 1
    · have hd := (h1 he).2
      simp only [] at hd
      rw [block_f_record _ start (start + 1) 0 [] rfl] at hd
      have hd2 := congrArg Prod.snd hd
      simp only at hd2
      rw [hd2, he]
      simp [int_range, List.range_succ]
    · have hz : (end_ - start).toNat = 0 := by omega
      rw [(h0 (by omega)).2.2, hz]
      simp [int_range]
  · obtain ⟨o, g, n, ho, hg, h0, hn, _, _, hsub⟩ := handed_cuts p start end_
      (fun range thread_idx => parallel_for_each.block_f record_index
        (range.second - range.first).toNat range thread_idx) sched [] hle hw hs hcase
    obtain ⟨o', ho', hdata⟩ := parallel_for_running_data p start end_
      (fun range thread_idx => parallel_for_each.block_f record_index
        (range.second - range.first).toNat range thread_idx) sched [] (by omega) hw hs
    rw [ho] at ho'
    cases Option.some.inj ho'
    refine ⟨o, ho, ?_⟩
    rw [hdata, hsub (by omega), run_submitted_record sched g hg n 0 [], h0, hn]
    simp

/-- In the branch `block_size == 0` (at least two elements, fewer than workers),
the submitted ranges are the unit ranges counted from `0`, whatever `start` is. -/
theorem parallel_for_unit_branch {σ : Type} (p : thread_pool blocked_range) (start end_ : Int)
    (f : range_fn σ) (sched : Nat → Nat) (s : σ) (hlen : 2 ≤ end_ - start)
    (hlt : end_ - start < (p.workers : Int)) (hs : p.stop = false) :
    ∃ o, p.parallel_for start end_ f sched s = some o ∧ o.calls = [] ∧
      o.futures.map future.task =
        (List.range (end_ - start).toNat).map (fun k : Nat => ⟨(k : Int), (k : Int) + 1⟩) := by
  obtain ⟨o, ho, _, hcalls, hfut, _⟩ :=
    parallel_for_running p start end_ f sched s hlen (by omega) hs
  have hq : (end_ - start).toNat / p.workers = 0 := Nat.div_eq_of_lt (by omega)
  refine ⟨o, ho, hcalls, ?_⟩
  rw [hfut, submitted_ranges, if_pos hq]
  simp [cuts]

/-! ## The scenario of example.cpp -/

theorem example_cpp_first_pass :
    ((thread_pool.construct 4 0 : thread_pool blocked_range).parallel_for_each 0 10
        example_increment (fun k => k % 4) [1, 2, 3, 4, 5, 6, 7, 8, 9, 10]).map pf_outcome.data =
      some [2, 3, 4, 5, 6, 7, 8, 9, 10, 11] := by
  decide

theorem example_cpp_second_pass :
    ((thread_pool.construct 4 0 : thread_pool blocked_range).parallel_for 0 10
        (fun range thread_idx =>
          parallel_for_each.block_f example_increment (range.second - range.first).toNat range
            thread_idx)
        (fun k => k % 4) [2, 3, 4, 5, 6, 7, 8, 9, 10, 11]).map pf_outcome.data =
      some [3, 4, 5, 6, 7, 8, 9, 10, 11, 12] := by
  decide

/-! ## The claims -/

/-- C1 (defect of the code): the claim asks that the ranges handed to `f` cover
exactly `[start, end)`.  With 4 workers, `parallel_for(5, 7, f)` has 2 elements
and takes the `block_size == 0` branch, whose loop counts from `0` instead of
`start`: the ranges handed to `f` are `[0,1)` and `[1,2)`, and their union is
not `[5, 7)`. -/
theorem parallel_for_unit_branch_ignores_start :
    ((thread_pool.construct 4 0 : thread_pool blocked_range).parallel_for 5 7 no_op
        (fun k => k % 4) ()).map pf_outcome.handed = some [⟨0, 1⟩, ⟨1, 2⟩] ∧
    ¬ union_is [⟨0, 1⟩, ⟨1, 2⟩] 5 7 :=
  ⟨by decide, fun h => absurd ((h 0).mp ⟨⟨0, 1⟩, by simp, by decide, by decide⟩).1 (by decide)⟩

/-- C2 (defect of the code): the claim asks that `parallel_for_each(start, end, f)`
invokes `f` once on each index of `[start, end)` and on no other index.  With 4
workers, `parallel_for_each(5, 7, f)` invokes `f` on the indices `0` and `1`
(on workers 0 and 1) and never on `5` or `6`. -/
theorem parallel_for_each_visits_wrong_indices :
    ((thread_pool.construct 4 0 : thread_pool blocked_range).parallel_for_each 5 7 record_index
        (fun k => k % 4) []).map pf_outcome.data = some [(0, 0), (1, 1)] := by
  decide

/-- C3, counterexample: with 2 workers and an `f` that throws on every range,
`parallel_for(0, 4, f)` submits `[0,2)` and `[2,4)`, `f` fails on both, and the
call still returns normally. -/
theorem parallel_for_swallows_failure :
    ((thread_pool.construct 2 0 : thread_pool blocked_range).parallel_for 0 4 always_throws
        (fun k => k % 2) ()).map
      (fun o => (o.result, o.futures.map future.task,
        o.ran.map (fun x => (always_throws x.1 x.2 ()).1))) =
      some (.ok (), [⟨0, 2⟩, ⟨2, 4⟩], [.error "failure in f", .error "failure in f"]) := by
  rfl

/-- C3, as amended: every call of `parallel_for` that issues sub-tasks waits on
the future of every issued sub-task, in order, each sub-task having been invoked
once, and then returns normally, whatever `f` did: a failure of `f` on a
sub-range stays in the shared state of that future and does not reach the
caller. -/
theorem parallel_for_waits_then_returns {σ : Type} (p : thread_pool blocked_range)
    (start end_ : Int) (f : range_fn σ) (sched : Nat → Nat) (s : σ) (o : pf_outcome σ)
    (hcall : p.parallel_for start end_ f sched s = some o) (hissued : o.futures ≠ []) :
    o.waited = o.futures ∧ o.ran.map Prod.fst = o.futures.map future.task ∧
      o.result = .ok () := by
  by_cases hlen : end_ - start < 2
  · obtain ⟨o', ho', hfut, _⟩ := parallel_for_short p start end_ f sched s hlen
    rw [hcall] at ho'
    cases Option.some.inj ho'
    exact absurd hfut hissued
  · by_cases hw : p.workers = 0
    · simp [thread_pool.parallel_for, hlen, hw] at hcall
    · cases hs : p.stop
      · obtain ⟨o', ho', hres, _, _, hwait, hran, _⟩ :=
          parallel_for_running p start end_ f sched s (by omega) (by omega) hs
        rw [hcall] at ho'
        cases Option.some.inj ho'
        exact ⟨hwait, hran, hres⟩
      · have h := parallel_for_stopped p start end_ f sched s (by omega) (by omega) hs
        rw [hcall] at h
        cases Option.some.inj h
        exact absurd rfl hissued

/-- C3, the amended statement at 2 workers, range `[0, 4)` and a failing `f`. -/
theorem parallel_for_waits_then_returns_witness :
    ∃ o, (thread_pool.construct 2 0 : thread_pool blocked_range).parallel_for 0 4 always_throws
        (fun k => k % 2) () = some o ∧
      o.futures ≠ [] ∧
      (o.waited = o.futures ∧ o.ran.map Prod.fst = o.futures.map future.task ∧
        o.result = .ok ()) :=
  ⟨_, rfl, by decide,
    parallel_for_waits_then_returns (thread_pool.construct 2 0) 0 4 always_throws
      (fun k => k % 2) () _ rfl (by decide)⟩

/-- C4: on a pool with `stop = true`, `enqueue(f)` throws
"enqueue on stopped thread_pool" and leaves the whole state, the queue included,
as it was; on a pool with `stop = false` it returns a future, the new queue is
the old queue with the task appended at the back, and `stop` and all other
components are unchanged. -/
theorem enqueue_contract {τ : Type} (p : thread_pool τ) (f : τ) :
    (p.stop = true →
      (p.enqueue f).1 = .error "enqueue on stopped thread_pool" ∧ (p.enqueue f).2 = p) ∧
    (p.stop = false →
      (p.enqueue f).1 = .ok ⟨f⟩ ∧ (p.enqueue f).2.tasks = p.tasks ++ [f] ∧
        (p.enqueue f).2.stop = p.stop ∧
        (p.enqueue f).2 = { p with tasks := p.tasks ++ [f] }) := by
  constructor
  · intro hs
    rw [enqueue_stopped p f hs]
    exact ⟨rfl, rfl⟩
  · intro hs
    rw [enqueue_running p f hs]
    exact ⟨rfl, rfl, rfl, rfl⟩

/-- C4 at a stopped and at a running pool of 2 workers with queue `[5]`. -/
theorem enqueue_contract_witness :
    (({ workers := 2, tasks := [5], stop := true, exited := [], ran := [] } :
        thread_pool Nat).stop = true ∧
      (({ workers := 2, tasks := [5], stop := true, exited := [], ran := [] } :
        thread_pool Nat).enqueue 6).1 = .error "enqueue on stopped thread_pool" ∧
      (({ workers := 2, tasks := [5], stop := true, exited := [], ran := [] } :
        thread_pool Nat).enqueue 6).2 =
        { workers := 2, tasks := [5], stop := true, exited := [], ran := [] }) ∧
    (({ workers := 2, tasks := [5], stop := false, exited := [], ran := [] } :
        thread_pool Nat).stop = false ∧
      (({ workers := 2, tasks := [5], stop := false, exited := [], ran := [] } :
        thread_pool Nat).enqueue 6).2.tasks = [5, 6]) :=
  ⟨⟨rfl, (enqueue_contract _ 6).1 rfl⟩, ⟨rfl, ((enqueue_contract _ 6).2 rfl).2.1⟩⟩

/-- C5: for a pool constructed with at least one worker:
(1) a worker step that makes worker `i` exit starts from a state with `stop` set
and an empty queue; (2) in every state with a non-empty queue, whatever `stop`
is, the step of a running worker `i` removes exactly the front task and invokes
it with index `i`; (3) a worker that steps has an index below the number of
workers; (4) in every state reached from the constructed pool, every invocation
carries a worker index below the number of workers, the tasks invoked so far
followed by the queue are exactly the accepted submissions in order, and once
all workers have exited the queue is empty and every accepted submission has
been invoked; (5) no run resets `stop` from true to false. -/
theorem worker_loop_drains_queue {τ : Type} (threads hardware_concurrency : Nat)
    (hworkers : 1 ≤ (thread_pool.construct threads hardware_concurrency : thread_pool τ).workers) :
    (∀ (p q : thread_pool τ) (i : Nat), p.worker_step i = some q → i ∈ q.exited →
        p.stop = true ∧ p.tasks = []) ∧
    (∀ (p : thread_pool τ) (i : Nat) (task : τ) (rest : List τ),
        i < p.workers → i ∉ p.exited → p.tasks = task :: rest →
        p.worker_step i = some { p with tasks := rest, ran := p.ran ++ [(task, i)] }) ∧
    (∀ (p q : thread_pool τ) (i : Nat), p.worker_step i = some q → i < p.workers) ∧
    (∀ (acts : List (pool_action τ)) (p : thread_pool τ),
        (thread_pool.construct threads hardware_concurrency).run acts = some p →
        (∀ x ∈ p.ran, x.2 < p.workers) ∧
        p.ran.map Prod.fst ++ p.tasks = accepted false acts ∧
        (p.all_exited → p.tasks = [] ∧ p.ran.map Prod.fst = accepted false acts)) ∧
    (∀ (acts : List (pool_action τ)) (p q : thread_pool τ),
        p.run acts = some q → p.stop = true → q.stop = true) := by
  refine ⟨?_, ?_, ?_, ?_, ?_⟩
  · intro p q i h hi
    obtain ⟨hx, h1 | ⟨t, rest, _, h1⟩⟩ := worker_step_cases p q i h
    · exact ⟨h1.1, h1.2.1⟩
    · rw [h1] at hi
      exact absurd hi hx.2
  · intro p i task rest hi hx ht
    exact worker_step_pop p i task rest hi hx ht
  · intro p q i h
    exact (worker_step_cases p q i h).1.1
  · intro acts p h
    have hran : ∀ x ∈ p.ran, x.2 < p.workers :=
      run_invariant (fun p => ∀ x ∈ p.ran, x.2 < p.workers) step_ran_index acts _ p h
        (by simp [thread_pool.construct])
    have hhist := run_history acts _ p h
    have hhist' : p.ran.map Prod.fst ++ p.tasks = accepted false acts := by
      rw [hhist]; simp [thread_pool.construct]
    have hdr : drained p :=
      run_invariant drained step_drained acts _ p h (by simp [drained, thread_pool.construct])
    have hwk := run_workers acts _ p h
    refine ⟨hran, hhist', ?_⟩
    intro hall
    have h0 : 0 ∈ p.exited := hall 0 (by omega)
    have hne : p.exited ≠ [] := List.ne_nil_of_mem h0
    have ht := (hdr hne).2
    refine ⟨ht, ?_⟩
    rw [ht, List.append_nil] at hhist'
    exact hhist'
  · intro acts p q h hs
    exact run_stop_mono acts p q h hs

/-- C5 at a pool of 2 workers: three tasks are accepted, a fourth one is
refused after the destructor has set `stop`, and when both workers have exited
the queue is empty and the three accepted tasks have been invoked in order. -/
theorem worker_loop_drains_queue_witness :
    1 ≤ (thread_pool.construct 2 0 : thread_pool Nat).workers ∧
    (((thread_pool.construct 2 0 : thread_pool Nat).run
        [.enqueue 7, .worker 1, .enqueue 8, .enqueue 9, .destroy, .enqueue 10, .worker 0,
         .worker 1, .worker 1, .worker 0]).map
      (fun p => (p.tasks, p.ran)) = some ([], [(7, 1), (8, 0), (9, 1)])) ∧
    accepted false ([.enqueue 7, .worker 1, .enqueue 8, .enqueue 9, .destroy, .enqueue 10,
        .worker 0, .worker 1, .worker 1, .worker 0] : List (pool_action Nat)) = [7, 8, 9] :=
  ⟨by decide, by decide, by
    have h := (worker_loop_drains_queue (τ := Nat) 2 0 (by decide)).2.2.2.1
      [.enqueue 7, .worker 1, .enqueue 8, .enqueue 9, .destroy, .enqueue 10, .worker 0,
         .worker 1, .worker 1, .worker 0] _ rfl
    exact (h.2.2 (by decide)).2.symm.trans (by decide)⟩

/-- C6, counterexample: constructed with `threads = 0` while
`hardware_concurrency()` reports `0`, the pool has no worker, so `num_threads()`
is `0` and not at least `1`. -/
theorem construct_without_hardware_report :
    (thread_pool.construct 0 0 : thread_pool Nat).num_threads = 0 ∧
    ¬ (1 ≤ (thread_pool.construct 0 0 : thread_pool Nat).num_threads) := by
  decide

/-- C6, as amended: the constructed pool has exactly `threads` workers when
`threads > 0` and exactly `hardware_concurrency` workers when `threads == 0`,
with no lower bound applied; `num_threads()` is at least `1` whenever
`threads > 0` or the reported hardware concurrency is positive; and it keeps
that value in every state reached by `enqueue`, worker and destructor steps and
after every call of `parallel_for` and `parallel_for_each`. -/
theorem num_threads_of_construct {τ : Type} (threads hardware_concurrency : Nat) :
    (thread_pool.construct threads hardware_concurrency : thread_pool τ).num_threads =
      (if threads = 0 then hardware_concurrency else threads) ∧
    (0 < threads ∨ 0 < hardware_concurrency →
      1 ≤ (thread_pool.construct threads hardware_concurrency : thread_pool τ).num_threads) ∧
    (∀ (acts : List (pool_action τ)) (p : thread_pool τ),
      (thread_pool.construct threads hardware_concurrency).run acts = some p →
      p.num_threads =
        (thread_pool.construct threads hardware_concurrency : thread_pool τ).num_threads) ∧
    (∀ (σ : Type) (p : thread_pool blocked_range) (start end_ : Int) (f : range_fn σ)
        (sched : Nat → Nat) (s : σ) (o : pf_outcome σ),
      p.parallel_for start end_ f sched s = some o → o.pool.num_threads = p.num_threads) ∧
    (∀ (σ : Type) (p : thread_pool blocked_range) (start end_ : Int) (f : index_fn σ)
        (sched : Nat → Nat) (s : σ) (o : pf_outcome σ),
      p.parallel_for_each start end_ f sched s = some o → o.pool.num_threads = p.num_threads) := by
  refine ⟨construct_workers threads hardware_concurrency, ?_, ?_, ?_, ?_⟩
  · intro h
    rw [thread_pool.num_threads, construct_workers]
    split <;> omega
  · intro acts p h
    exact run_workers acts _ p h
  · intro σ p start end_ f sched s o h
    exact parallel_for_num_threads p start end_ f sched s o h
  · intro σ p start end_ f sched s o h
    exact parallel_for_num_threads p start end_ _ sched s o h

/-- C6, the amended statement at `threads = 0` and a hardware concurrency of 8. -/
theorem num_threads_of_construct_witness :
    (0 < 0 ∨ 0 < 8) ∧ 1 ≤ (thread_pool.construct 0 8 : thread_pool Nat).num_threads ∧
    ((thread_pool.construct 0 8 : thread_pool Nat).run
        [.enqueue 1, .worker 3, .destroy, .worker 0] =
      some { workers := 8, tasks := [], stop := true, exited := [0], ran := [(1, 3)] }) ∧
    ({ workers := 8, tasks := [], stop := true, exited := [0], ran := [(1, 3)] } :
        thread_pool Nat).num_threads = (thread_pool.construct 0 8 : thread_pool Nat).num_threads :=
  ⟨by decide, (num_threads_of_construct 0 8).2.1 (by decide), rfl,
    (num_threads_of_construct 0 8).2.2.1 [.enqueue 1, .worker 3, .destroy, .worker 0] _ rfl⟩

/-- C7: when `end - start < 2`, `parallel_for(start, end, f)` submits nothing
and leaves the pool as it was, for every number of workers; it invokes `f`
directly, once for each index `i` of `[start, end)` with the unit range
`[i, i+1)`: once with `[start, start+1)` when `end - start == 1`, and not at all
when `start == end` or `start > end`, in which cases it returns normally with
the data untouched. -/
theorem parallel_for_degenerate {σ : Type} (p : thread_pool blocked_range) (start end_ : Int)
    (f : range_fn σ) (sched : Nat → Nat) (s : σ) (hlen : end_ - start < 2) :
    ∃ o, p.parallel_for start end_ f sched s = some o ∧
      o.futures = [] ∧ o.ran = [] ∧ o.pool = p ∧
      o.calls = (List.range (end_ - start).toNat).map
        (fun k : Nat => ((⟨start + (k : Int), start + (k : Int) + 1⟩ : blocked_range), 0)) ∧
      (end_ - start = 1 → o.calls = [(⟨start, start + 1⟩, 0)]) ∧
      (start = end_ → o.calls = [] ∧ o.result = .ok () ∧ o.data = s) ∧
      (end_ < start → o.calls = [] ∧ o.result = .ok () ∧ o.data = s) := by
  obtain ⟨o, ho, hfut, hran, _, hpool, h1, h0⟩ := parallel_for_short p start end_ f sched s hlen
  refine ⟨o, ho, hfut, hran, hpool, ?_, fun h => (h1 h).1, fun h => h0 (by omega),
    fun h => h0 (by omega)⟩
  by_cases he : end_ - start = 1
  · rw [(h1 he).1, he]; simp [List.range_succ]
  · have hz : (end_ - start).toNat = 0 := by omega
    rw [(h0 (by omega)).1, hz]; simp

/-- C7 at the ranges `(7, 7)`, `(7, 3)` and `(7, 8)` on a pool of 4 workers. -/
theorem parallel_for_degenerate_witness :
    ((7 : Int) - 7 < 2 ∧ (7 : Int) = 7 ∧ (3 : Int) - 7 < 2 ∧ (3 : Int) < 7 ∧ (8 : Int) - 7 < 2 ∧
      (8 : Int) - 7 = 1) ∧
    (∃ o, (thread_pool.construct 4 0 : thread_pool blocked_range).parallel_for 7 7 no_op
        (fun k => k % 4) () = some o ∧ o.calls = [] ∧ o.futures = []) ∧
    (∃ o, (thread_pool.construct 4 0 : thread_pool blocked_range).parallel_for 7 3 no_op
        (fun k => k % 4) () = some o ∧ o.calls = [] ∧ o.futures = []) ∧
    (∃ o, (thread_pool.construct 4 0 : thread_pool blocked_range).parallel_for 7 8 no_op
        (fun k => k % 4) () = some o ∧ o.calls = [(⟨7, 8⟩, 0)] ∧ o.futures = []) :=
  ⟨by decide,
    (parallel_for_degenerate (thread_pool.construct 4 0) 7 7 no_op (fun k => k % 4) ()
      (by decide)).imp (fun _ h => ⟨h.1, (h.2.2.2.2.2.2.1 rfl).1, h.2.1⟩),
    (parallel_for_degenerate (thread_pool.construct 4 0) 7 3 no_op (fun k => k % 4) ()
      (by decide)).imp (fun _ h => ⟨h.1, (h.2.2.2.2.2.2.2 (by decide)).1, h.2.1⟩),
    (parallel_for_degenerate (thread_pool.construct 4 0) 7 8 no_op (fun k => k % 4) ()
      (by decide)).imp (fun _ h => ⟨h.1, h.2.2.2.2.2.1 (by decide), h.2.1⟩)⟩

/-- C8, counterexample: on a pool of 4 workers whose scheduler would hand every
task to worker 3, `parallel_for(0, 1, f)` pushes nothing onto the queue and
creates no future; `f` is called directly with `[0,1)` and worker index `0`. -/
theorem parallel_for_single_bypasses_queue :
    ((thread_pool.construct 4 0 : thread_pool blocked_range).parallel_for 0 1 no_op
        (fun _ => 3) ()).map (fun o => (o.calls, o.futures, o.ran, o.pool.tasks)) =
      some ([(⟨0, 1⟩, 0)], [], [], []) := by
  decide

/-- C8, as amended: for every call with `end - start == 1`, the single element
is executed inline: `parallel_for` calls `f` directly, once, with the unit range
`[start, start+1)` and the fixed worker index `0`; it pushes no submission onto
the queue, no worker invokes `f`, and the outcome of the call is that of this
one invocation of `f`. -/
theorem parallel_for_single_inline {σ : Type} (p : thread_pool blocked_range) (start : Int)
    (f : range_fn σ) (sched : Nat → Nat) (s : σ) :
    ∃ o, p.parallel_for start (start + 1) f sched s = some o ∧
      o.calls = [(⟨start, start + 1⟩, 0)] ∧ o.futures = [] ∧ o.ran = [] ∧ o.pool = p ∧
      (o.result, o.data) = f ⟨start, start + 1⟩ 0 s := by
  obtain ⟨o, ho, hfut, hran, _, hpool, h1, _⟩ :=
    parallel_for_short p start (start + 1) f sched s (by omega)
  exact ⟨o, ho, (h1 (by omega)).1, hfut, hran, hpool, (h1 (by omega)).2⟩

/-- C9: on a running pool of `W >= 1` workers and for a length
`L = end - start` with `L >= 2` and `L >= W`, `parallel_for` calls nothing
inline and submits exactly `W` ranges, appended to the queue in order; the
`k`-th range has size `L / W + 1` when `k < L mod W` and `L / W` otherwise; the
first range begins at `start`, each range begins where the previous one ends,
and the last range ends at `end`. -/
theorem parallel_for_block_branch {σ : Type} (p : thread_pool blocked_range) (start end_ : Int)
    (f : range_fn σ) (sched : Nat → Nat) (s : σ) (hlen : 2 ≤ end_ - start)
    (hw : 1 ≤ p.workers) (hle : (p.workers : Int) ≤ end_ - start) (hs : p.stop = false) :
    ∃ o, p.parallel_for start end_ f sched s = some o ∧
      o.calls = [] ∧
      o.futures.length = p.workers ∧
      o.pool.tasks = p.tasks ++ o.futures.map future.task ∧
      (∀ k, k < p.workers → ∃ r, (o.futures.map future.task)[k]? = some r ∧
        r.size = ((if k < (end_ - start).toNat % p.workers
          then (end_ - start).toNat / p.workers + 1
          else (end_ - start).toNat / p.workers : Nat) : Int)) ∧
      (o.futures.map future.task).head?.map blocked_range.first = some start ∧
      contiguous (o.futures.map future.task) ∧
      (o.futures.map future.task).getLast?.map blocked_range.second = some end_ := by
  obtain ⟨o, ho, _, hcalls, hfut, _, _, hpool⟩ :=
    parallel_for_running p start end_ f sched s hlen hw hs
  have hWL : p.workers ≤ (end_ - start).toNat := by omega
  have hq : ¬ ((end_ - start).toNat / p.workers = 0) :=
    Nat.pos_iff_ne_zero.mp (Nat.div_pos hWL (by omega))
  have hsub : submitted_ranges p.workers start end_ =
      cuts (block_cut start ((end_ - start).toNat / p.workers)
        ((end_ - start).toNat - (end_ - start).toNat / p.workers * p.workers)) p.workers := by
    simp [submitted_ranges, hq]
  rw [hsub] at hfut hpool
  obtain ⟨n, hn⟩ : ∃ n, p.workers = n + 1 := ⟨p.workers - 1, by omega⟩
  refine ⟨o, ho, hcalls, ?_, ?_, ?_, ?_, ?_, ?_⟩
  · have := congrArg List.length hfut
    simpa [cuts_length] using this
  · rw [hpool, hfut]
  · intro k hk
    refine ⟨_, by rw [hfut]; exact cuts_getElem? _ _ k hk, ?_⟩
    rw [blocked_range.size, block_cut_step, leftover_eq_mod]
  · rw [hfut, hn, cuts_succ]
    simp [block_cut_zero]
  · rw [hfut]; exact cuts_contiguous _ _
  · rw [hfut]
    have hlast := block_cut_last start end_ p.workers (by omega) hw
    rw [hn] at hlast ⊢
    rw [cuts_succ_last]
    simp [hlast]

/-- C9 at 4 workers and the range `[0, 10)`. -/
theorem parallel_for_block_branch_witness :
    ((2 : Int) ≤ 10 - 0 ∧ 1 ≤ (thread_pool.construct 4 0 : thread_pool blocked_range).workers ∧
      (((thread_pool.construct 4 0 : thread_pool blocked_range).workers : Nat) : Int) ≤ 10 - 0 ∧
      (thread_pool.construct 4 0 : thread_pool blocked_range).stop = false) ∧
    (∃ o, (thread_pool.construct 4 0 : thread_pool blocked_range).parallel_for 0 10 no_op
        (fun k => k % 4) () = some o ∧ o.futures.length = 4 ∧
        (o.futures.map future.task).head?.map blocked_range.first = some 0 ∧
        (o.futures.map future.task).getLast?.map blocked_range.second = some 10) :=
  ⟨by decide,
    (parallel_for_block_branch (thread_pool.construct 4 0) 0 10 no_op (fun k => k % 4) ()
      (by decide) (by decide) (by decide) rfl).imp
      (fun _ h => ⟨h.1, h.2.2.1, h.2.2.2.2.2.1, h.2.2.2.2.2.2.2⟩)⟩

/-- C10: for `start = 0`, every `end >= 0` and every running pool of `W >= 1`
workers, the ranges that `parallel_for(0, end, f)` hands to `f` are contiguous,
pairwise disjoint and cover exactly `[0, end)`, each index once; when
`2 <= end < W` nothing is called inline and the submissions are exactly the unit
ranges `[0,1), [1,2), ..., [end-1, end)`, appended to the queue. -/
theorem parallel_for_from_zero {σ : Type} (p : thread_pool blocked_range) (end_ : Int)
    (f : range_fn σ) (sched : Nat → Nat) (s : σ) (hend : 0 ≤ end_) (hw : 1 ≤ p.workers)
    (hs : p.stop = false) :
    ∃ o, p.parallel_for 0 end_ f sched s = some o ∧
      contiguous o.handed ∧ non_overlapping o.handed ∧ union_is o.handed 0 end_ ∧
      (∀ i, times_covered o.handed i = if 0 ≤ i ∧ i < end_ then 1 else 0) ∧
      (2 ≤ end_ → end_ < (p.workers : Int) →
        o.calls = [] ∧
        o.futures.map future.task =
          (List.range end_.toNat).map (fun k : Nat => ⟨(k : Int), (k : Int) + 1⟩) ∧
        o.pool.tasks = p.tasks ++
          (List.range end_.toNat).map (fun k : Nat => ⟨(k : Int), (k : Int) + 1⟩)) := by
  obtain ⟨o, g, n, ho, hg, h0, hn, _, hh, _⟩ :=
    handed_cuts p 0 end_ f sched s hend hw hs (Or.inr (Or.inr rfl))
  refine ⟨o, ho, ?_, ?_, ?_, ?_, ?_⟩
  · rw [hh]; exact cuts_contiguous g n
  · rw [hh]; exact cuts_non_overlapping g hg n
  · rw [hh, ← h0, ← hn]; exact cuts_union g hg n
  · intro i
    rw [hh, ← h0, ← hn]; exact cuts_times_covered g hg n i
  · intro h2 hlt
    obtain ⟨o', ho', _, hcalls, hfut, _, _, hpool⟩ :=
      parallel_for_running p 0 end_ f sched s (by omega) hw hs
    rw [ho] at ho'
    cases Option.some.inj ho'
    have hq : (end_ - 0).toNat / p.workers = 0 := Nat.div_eq_of_lt (by omega)
    have hsub : submitted_ranges p.workers 0 end_ =
        (List.range end_.toNat).map (fun k : Nat => ⟨(k : Int), (k : Int) + 1⟩) := by
      rw [submitted_ranges, if_pos hq]
      simp [cuts]
    rw [hsub] at hfut hpool
    exact ⟨hcalls, hfut, by rw [hpool]⟩

/-- C10 at 8 workers and `end = 3`. -/
theorem parallel_for_from_zero_witness :
    ((0 : Int) ≤ 3 ∧ 1 ≤ (thread_pool.construct 8 0 : thread_pool blocked_range).workers ∧
      (thread_pool.construct 8 0 : thread_pool blocked_range).stop = false ∧ (2 : Int) ≤ 3 ∧
      (3 : Int) < (((thread_pool.construct 8 0 : thread_pool blocked_range).workers : Nat) : Int)) ∧
    (∃ o, (thread_pool.construct 8 0 : thread_pool blocked_range).parallel_for 0 3 no_op
        (fun k => k % 8) () = some o ∧ union_is o.handed 0 3 ∧
        o.futures.map future.task = [⟨0, 1⟩, ⟨1, 2⟩, ⟨2, 3⟩]) :=
  ⟨by decide,
    (parallel_for_from_zero (thread_pool.construct 8 0) 3 no_op (fun k => k % 8) ()
      (by decide) (by decide) rfl).imp
      (fun _ h => ⟨h.1, h.2.2.2.1, (h.2.2.2.2.2 (by decide) (by decide)).2.1⟩)⟩
